import Mathlib

/-!
Verification of the samplers in `notebooks/Sampling_Slice.ipynb` (classes
`SliceSampling`, `MultiSampling`, `GibbsSampling`).

Embedding conventions:
* Real numbers are modelled by `ℚ`; log-densities take values in
  `WithBot ℚ` where `⊥` models `-inf` (numpy's `np.log(0)`), so a target
  density that is zero at a point has log-density `⊥` there.
* Every call to `np.random.*` is an injected input.  A run is driven by a
  stream `rng : ℕ → ℚ` together with a cursor `k`; each consumed draw
  advances the cursor by one, exactly in the order the Python code consumes
  draws.  The draw `np.random.uniform(low=xl, high=xr)` with underlying
  unit draw `u` is `xl + u*(xr - xl)`, and `np.random.uniform()` is `u`
  itself.  The slice-level draw
  `np.log(np.random.uniform(low=0, high=np.exp(log_px)))` equals, for the
  underlying unit draw `u`, `log_px + log u`; since `log` is not rational,
  the stream entry for this draw is interpreted as `log u` directly (the
  measure-zero draw `u = 0`, whose log is `-inf`, is not representable and
  not modelled).
* The `while` loops of the source have no termination guarantee, so they
  are embedded fuel-indexed: `none` means the fuel was exhausted, i.e. the
  Python loop did not finish within that many iterations.  Nontermination
  is expressed as returning `none` for every fuel.
-/

/-- A log-density as used by the notebook: values in `ℝ ∪ {-inf}`,
modelled as `ℚ ∪ {⊥}`. -/
abbrev LogDensity : Type := ℚ → WithBot ℚ

/-- State of the `SliceSampling` class: fields `x`, `w`, `samples`,
`evals` of `SliceSampling.__init__`. -/
structure SliceSampling where
  x : ℚ
  w : ℚ
  samples : ℕ
  evals : ℕ
  deriving DecidableEq, Repr

namespace SliceSampling

/-- Result of an accepted shrink loop: the accepted value `x_prime`, the
bracket `[xl, xr]` at the moment of acceptance (ghost outputs used to
state invariants), the stream cursor and the evaluation counter after the
loop. -/
structure ShrinkResult where
  val : ℚ
  xl : ℚ
  xr : ℚ
  k : ℕ
  evals : ℕ
  deriving DecidableEq, Repr

/-- Result of `SliceSampling.sample`: the returned `x_prime`, the bracket
at acceptance (ghost outputs), the updated object state and the stream
cursor after the call. -/
structure SampleResult where
  val : ℚ
  xl : ℚ
  xr : ℚ
  state : SliceSampling
  k : ℕ
  deriving DecidableEq, Repr

/-- `while (self._log_p(xl) > log_u_prime): xl -= self.w`.
Each test evaluates `self._log_p` once, incrementing `evals`.  Returns the
final `xl` and the evaluation counter; `none` if the fuel ran out with the
condition still true. -/
def stepOutLeft (log_p : LogDensity) (w : ℚ) (logu : WithBot ℚ) :
    ℕ → ℚ → ℕ → Option (ℚ × ℕ)
  | 0, xl, ev => if log_p xl > logu then none else some (xl, ev + 1)
  | fuel + 1, xl, ev =>
    if log_p xl > logu then stepOutLeft log_p w logu fuel (xl - w) (ev + 1)
    else some (xl, ev + 1)

/-- `while (self._log_p(xr) > log_u_prime): xr += self.w`. -/
def stepOutRight (log_p : LogDensity) (w : ℚ) (logu : WithBot ℚ) :
    ℕ → ℚ → ℕ → Option (ℚ × ℕ)
  | 0, xr, ev => if log_p xr > logu then none else some (xr, ev + 1)
  | fuel + 1, xr, ev =>
    if log_p xr > logu then stepOutRight log_p w logu fuel (xr + w) (ev + 1)
    else some (xr, ev + 1)

/-- The `while True` shrink-and-accept loop of `SliceSampling.sample`:
draw `x_prime = np.random.uniform(low=xl, high=xr)` (one stream entry,
scaled), evaluate `self._log_p(x_prime)`; accept if above the slice level,
otherwise shrink the bracket toward `self.x` and repeat. -/
def shrinkLoop (log_p : LogDensity) (x : ℚ) (logu : WithBot ℚ) (rng : ℕ → ℚ) :
    ℕ → ℚ → ℚ → ℕ → ℕ → Option ShrinkResult
  | 0, xl, xr, k, ev =>
    let x_prime := xl + rng k * (xr - xl)
    if log_p x_prime > logu then some ⟨x_prime, xl, xr, k + 1, ev + 1⟩ else none
  | fuel + 1, xl, xr, k, ev =>
    let x_prime := xl + rng k * (xr - xl)
    if log_p x_prime > logu then some ⟨x_prime, xl, xr, k + 1, ev + 1⟩
    else if x_prime > x then shrinkLoop log_p x logu rng fuel xl x_prime (k + 1) (ev + 1)
    else shrinkLoop log_p x logu rng fuel x_prime xr (k + 1) (ev + 1)

/-- `SliceSampling.sample`.  Stream use: entry `k` is the log of the unit
draw behind `np.random.uniform(low=0, high=np.exp(log_px))` (so the slice
level is `log_px + rng k`), entry `k+1` is `r = np.random.uniform()`, and
entries from `k+2` on drive the shrink loop.  The step-out loops consume
no randomness.  `fuel` bounds each of the three loops. -/
def sample (log_p : LogDensity) (s : SliceSampling) (rng : ℕ → ℚ) (k : ℕ)
    (fuel : ℕ) : Option SampleResult :=
  let log_px := log_p s.x
  let logu := log_px + ((rng k : ℚ) : WithBot ℚ)
  let r := rng (k + 1)
  let xl0 := s.x - r * s.w
  let xr0 := s.x + (1 - r) * s.w
  match stepOutLeft log_p s.w logu fuel xl0 (s.evals + 1) with
  | none => none
  | some (xl1, ev1) =>
    match stepOutRight log_p s.w logu fuel xr0 ev1 with
    | none => none
    | some (xr1, ev2) =>
      match shrinkLoop log_p s.x logu rng fuel xl1 xr1 (k + 2) ev2 with
      | none => none
      | some res =>
        some ⟨res.val, res.xl, res.xr, ⟨res.val, s.w, s.samples + 1, res.evals⟩, res.k⟩

end SliceSampling

/-- Concrete box log-density: `0` on `[-2, 2]`, `-inf` outside (the log of
an unnormalized uniform density), used to exercise the sampler on concrete
runs. -/
def boxLogP : LogDensity := fun y => if -2 ≤ y ∧ y ≤ 2 then (0 : ℚ) else ⊥

/-- Concrete injected stream: log-uniform draw `-1` for the slice level,
then `1/2` for every subsequent unit draw. -/
def boxRng : ℕ → ℚ := fun k => if k = 0 then -1 else 1/2

/-- Concrete slice sampler state `SliceSampling(log_p, x=0, w=1)`. -/
def boxState : SliceSampling := ⟨0, 1, 0, 0⟩

/-- Degenerate target (claim about a density equal to zero everywhere
except a single point): log-density `⊥` off `0`, `0` at `0`. -/
def degLogP : LogDensity := fun y => if y = 0 then (0 : ℚ) else ⊥

/-- Stream driving the degenerate run: slice-level log draw `-1`, bracket
placement `r`, and `0` for every shrink draw (numpy's `uniform(low, high)`
may return its lower endpoint). -/
def degRng (r : ℚ) : ℕ → ℚ := fun k => if k = 0 then -1 else if k = 1 then r else 0

/-- `n` successive calls of `SliceSampling.sample`, collecting the
returned samples; stops if a call exhausts its fuel. -/
def sliceRun (log_p : LogDensity) (rng : ℕ → ℚ) (fuel : ℕ) :
    ℕ → SliceSampling → ℕ → List ℚ
  | 0, _, _ => []
  | n + 1, s, k =>
    match SliceSampling.sample log_p s rng k fuel with
    | none => []
    | some res => res.val :: sliceRun log_p rng fuel n res.state res.k

/-- Type of the `uni_sampler` factory argument of `MultiSampling`: from a
1-D log-density and a start point it builds a one-dimensional sampler and
draws one sample from it (`self.uni_sampler(uni_log_p, 0).sample()`),
consuming the stream from the given cursor and returning the advanced
cursor. -/
abbrev UniSampler : Type := (ℚ → WithBot ℚ) → ℚ → (ℕ → ℚ) → ℕ → Option (ℚ × ℕ)

/-- State of the `MultiSampling` class: current vector `x` and the list of
direction vectors (the factory `uni_sampler` and `log_p` are passed as
parameters to the operations). -/
structure MultiSampling (n : ℕ) where
  x : Fin n → ℚ
  directions : List (Fin n → ℚ)

namespace MultiSampling

/-- The `for d in self.directions` loop of `MultiSampling.sample`: build
the restricted density `uni_log_p = lambda ux: self.log_p(self.x + ux*d)`,
draw `ux_prime` from a fresh 1-D sampler started at `0`, then update
`self.x = self.x + ux_prime*d`. -/
def loopDirs {n : ℕ} (log_p : (Fin n → ℚ) → WithBot ℚ) (uni : UniSampler)
    (rng : ℕ → ℚ) :
    List (Fin n → ℚ) → (Fin n → ℚ) → ℕ → Option ((Fin n → ℚ) × ℕ)
  | [], x, k => some (x, k)
  | d :: ds, x, k =>
    match uni (fun ux => log_p (fun i => x i + ux * d i)) 0 rng k with
    | none => none
    | some (ux', k') => loopDirs log_p uni rng ds (fun i => x i + ux' * d i) k'

/-- `MultiSampling.sample`: run the direction loop and return the updated
`self.x`. -/
def sample {n : ℕ} (log_p : (Fin n → ℚ) → WithBot ℚ) (uni : UniSampler)
    (m : MultiSampling n) (rng : ℕ → ℚ) (k : ℕ) :
    Option ((Fin n → ℚ) × MultiSampling n × ℕ) :=
  match loopDirs log_p uni rng m.directions m.x k with
  | none => none
  | some (v, k') => some (v, ⟨v, m.directions⟩, k')

/-- Spec-side companion (spec §4.2): the list of 1-D draws `u'_k`, one per
direction in order, each drawn by the factory sampler at offset `0` from
the density restricted along `d_k` at the partially updated state. -/
def draws {n : ℕ} (log_p : (Fin n → ℚ) → WithBot ℚ) (uni : UniSampler)
    (rng : ℕ → ℚ) :
    List (Fin n → ℚ) → (Fin n → ℚ) → ℕ → Option (List ℚ × ℕ)
  | [], _, k => some ([], k)
  | d :: ds, x, k =>
    match uni (fun ux => log_p (fun i => x i + ux * d i)) 0 rng k with
    | none => none
    | some (u, k') =>
      match draws log_p uni rng ds (fun i => x i + u * d i) k' with
      | none => none
      | some (us, k2) => some (u :: us, k2)

end MultiSampling

/-- State of the `GibbsSampling` class: the list of per-coordinate
conditional transitions and the current state list. -/
structure GibbsSampling (α : Type) where
  transitions : List (List α → α)
  x : List α

namespace GibbsSampling

/-- `for i in range(K): x[i] = self.transitions[i](x)`, walking the
transition list with the running index `i`; `none` models the `IndexError`
raised by the assignment `x[i] = ...` when `i ≥ len(x)`. -/
def sweepFrom {α : Type} : ℕ → List (List α → α) → List α → Option (List α)
  | _, [], x => some x
  | i, t :: ts, x =>
    if i < x.length then sweepFrom (i + 1) ts (x.set i (t x)) else none

/-- `GibbsSampling.sample`: copy the state, sweep, store and return the
swept state (the copy `x = self.x[:]` is the identity on list values; its
aliasing content is modelled separately by the heap embedding below). -/
def sample {α : Type} (g : GibbsSampling α) : Option (List α × GibbsSampling α) :=
  match sweepFrom 0 g.transitions g.x with
  | none => none
  | some v => some (v, ⟨g.transitions, v⟩)

/-- Spec-side companion (spec §4.3): `states ts x i` is the state after
the first `i` coordinate updates of one systematic sweep, coordinates
`0..i-1` holding this sweep's new values and the rest the previous
sweep's. -/
def states {α : Type} (ts : List (List α → α)) (x : List α) : ℕ → List α
  | 0 => x
  | i + 1 =>
    match ts.get? i with
    | some t => (states ts x i).set i (t (states ts x i))
    | none => states ts x i

end GibbsSampling

/-- Heap of list objects, modelling Python list identity for the
frame-effect claim about `GibbsSampling`: cells `0, …, size-1` are the
allocated lists. -/
structure Heap (α : Type) where
  size : ℕ
  data : ℕ → List α

/-- Allocate a fresh list object (models `self.x[:]` creating a new
list). -/
def Heap.alloc {α : Type} (h : Heap α) (v : List α) : Heap α × ℕ :=
  (⟨h.size + 1, fun i => if i = h.size then v else h.data i⟩, h.size)

/-- In-place update of the list object at cell `r` (models
`x[i] = ...`). -/
def Heap.write {α : Type} (h : Heap α) (r : ℕ) (v : List α) : Heap α :=
  ⟨h.size, fun i => if i = r then v else h.data i⟩

/-- `GibbsSampling` with its state held by reference: `xref` is the heap
cell holding `self.x`. -/
structure GibbsH (α : Type) where
  transitions : List (List α → α)
  xref : ℕ

/-- The Gibbs sweep acting through the heap on cell `r` (the working copy
`x`): each iteration reads the current list, computes
`self.transitions[i](x)` and assigns `x[i]` in place. -/
def gibbsSweepH {α : Type} (r : ℕ) : ℕ → List (List α → α) → Heap α → Option (Heap α)
  | _, [], h => some h
  | i, t :: ts, h =>
    if i < (h.data r).length then
      gibbsSweepH r (i + 1) ts (h.write r ((h.data r).set i (t (h.data r))))
    else none

/-- `GibbsSampling.sample` through the heap: `x = self.x[:]` allocates a
fresh cell holding a copy of the current state, the sweep mutates only
that cell, `self.x = x` repoints the sampler at it, and the fresh cell is
returned. -/
def gibbsSampleH {α : Type} (g : GibbsH α) (h : Heap α) :
    Option (ℕ × GibbsH α × Heap α) :=
  match Heap.alloc h (h.data g.xref) with
  | (h1, r) =>
    match gibbsSweepH r 0 g.transitions h1 with
    | none => none
    | some h2 => some (r, ⟨g.transitions, r⟩, h2)

/-- Repeated `sample()` calls through the heap; records, for each call,
the returned reference together with the list value it holds at the
moment that call returns. -/
def gibbsRunH {α : Type} : ℕ → GibbsH α → Heap α → Option (List (ℕ × List α) × GibbsH α × Heap α)
  | 0, g, h => some ([], g, h)
  | n + 1, g, h =>
    match gibbsSampleH g h with
    | none => none
    | some (r, g', h') =>
      match gibbsRunH n g' h' with
      | none => none
      | some (prs, g2, h2) => some ((r, h'.data r) :: prs, g2, h2)

/-- The per-call records of a heap run. -/
def runPairs {α : Type} (n : ℕ) (g : GibbsH α) (h : Heap α) :
    Option (List (ℕ × List α)) :=
  (gibbsRunH n g h).map (fun t => t.1)

/-- The list value held by cell `r` in the final heap of a run. -/
def runData {α : Type} (n : ℕ) (g : GibbsH α) (h : Heap α) (r : ℕ) :
    Option (List α) :=
  (gibbsRunH n g h).map (fun t => t.2.2.data r)

/-- Concrete Gibbs sampler whose single transition returns a list of the
wrong length (shape mismatch with the state's first coordinate). -/
def gDim : GibbsSampling (List ℚ) := ⟨[fun _ => [1, 2, 3]], [[1, 2]]⟩

/-- Concrete heap-model Gibbs sampler and heap for exercising the
frame-effect theorem: one transition, state `[5]` stored at cell `0`. -/
def gC : GibbsH ℚ := ⟨[fun _ => 42], 0⟩

/-- Initial heap for `gC`. -/
def hC : Heap ℚ := ⟨1, fun _ => [5]⟩

/-- Concrete stub 1-D sampler for exercising `MultiSampling`: ignores the
density and start point, returns `2` and consumes one draw (the
`uni_sampler` argument is caller-supplied in the source). -/
def uniTwo : UniSampler := fun _ _ _ k => some (2, k + 1)

/-- Concrete 1-dimensional multivariate state `x = (5)` with the single
direction `(1)`. -/
def m1 : MultiSampling 1 := ⟨fun _ => 5, [fun _ => 1]⟩

/-- Concrete 1-dimensional target for `m1`: the first coordinate. -/
def lp1 : (Fin 1 → ℚ) → WithBot ℚ := fun v => ((v 0 : ℚ) : WithBot ℚ)

/-- The all-zero stream. -/
def zeroRng : ℕ → ℚ := fun _ => 0

/-! ## Lemmas about the slice sampler loops -/

namespace SliceSampling

/-- When the left step-out terminates it has moved `xl` down by a whole
number of widths, performed that many evaluations plus one, and its final
point is at or below the slice level. -/
theorem stepOutLeft_spec (log_p : LogDensity) (w : ℚ) (logu : WithBot ℚ) :
    ∀ fuel xl ev xl' ev', stepOutLeft log_p w logu fuel xl ev = some (xl', ev') →
      ¬ log_p xl' > logu ∧ ∃ n : ℕ, xl' = xl - (n : ℚ) * w ∧ ev' = ev + n + 1 := by
  intro fuel
  induction fuel with
  | zero =>
    intro xl ev xl' ev' h
    by_cases hc : log_p xl > logu
    · simp [stepOutLeft, hc] at h
    · simp only [stepOutLeft, if_neg hc, Option.some.injEq, Prod.mk.injEq] at h
      obtain ⟨rfl, rfl⟩ := h
      exact ⟨hc, 0, by norm_num, by omega⟩
  | succ fuel ih =>
    intro xl ev xl' ev' h
    by_cases hc : log_p xl > logu
    · simp only [stepOutLeft, if_pos hc] at h
      obtain ⟨hne, n, hx, he⟩ := ih (xl - w) (ev + 1) xl' ev' h
      exact ⟨hne, n + 1, by rw [hx]; push_cast; ring, by omega⟩
    · simp only [stepOutLeft, if_neg hc, Option.some.injEq, Prod.mk.injEq] at h
      obtain ⟨rfl, rfl⟩ := h
      exact ⟨hc, 0, by norm_num, by omega⟩

/-- Right step-out analogue of `stepOutLeft_spec`. -/
theorem stepOutRight_spec (log_p : LogDensity) (w : ℚ) (logu : WithBot ℚ) :
    ∀ fuel xr ev xr' ev', stepOutRight log_p w logu fuel xr ev = some (xr', ev') →
      ¬ log_p xr' > logu ∧ ∃ n : ℕ, xr' = xr + (n : ℚ) * w ∧ ev' = ev + n + 1 := by
  intro fuel
  induction fuel with
  | zero =>
    intro xr ev xr' ev' h
    by_cases hc : log_p xr > logu
    · simp [stepOutRight, hc] at h
    · simp only [stepOutRight, if_neg hc, Option.some.injEq, Prod.mk.injEq] at h
      obtain ⟨rfl, rfl⟩ := h
      exact ⟨hc, 0, by norm_num, by omega⟩
  | succ fuel ih =>
    intro xr ev xr' ev' h
    by_cases hc : log_p xr > logu
    · simp only [stepOutRight, if_pos hc] at h
      obtain ⟨hne, n, hx, he⟩ := ih (xr + w) (ev + 1) xr' ev' h
      exact ⟨hne, n + 1, by rw [hx]; push_cast; ring, by omega⟩
    · simp only [stepOutRight, if_neg hc, Option.some.injEq, Prod.mk.injEq] at h
      obtain ⟨rfl, rfl⟩ := h
      exact ⟨hc, 0, by norm_num, by omega⟩

/-- Invariant of the shrink-and-accept loop: starting from a bracket
containing the current point and drawing unit uniforms, an accepting run
ends with the accepted value inside the final bracket and strictly above
the slice level; the loop consumes one draw and one evaluation per
iteration in lockstep. -/
theorem shrinkLoop_spec (log_p : LogDensity) (x : ℚ) (logu : WithBot ℚ)
    (rng : ℕ → ℚ) :
    ∀ fuel xl xr k ev res,
      xl ≤ x → x ≤ xr → (∀ i, k ≤ i → 0 ≤ rng i ∧ rng i ≤ 1) →
      shrinkLoop log_p x logu rng fuel xl xr k ev = some res →
      res.xl ≤ res.val ∧ res.val ≤ res.xr ∧ log_p res.val > logu ∧
        res.k + ev = k + res.evals ∧ k < res.k := by
  intro fuel
  induction fuel with
  | zero =>
    intro xl xr k ev res hxl hxr hrng h
    simp only [shrinkLoop] at h
    split at h
    · rename_i hacc
      injection h with h1
      subst h1
      obtain ⟨h0, h1⟩ := hrng k le_rfl
      have hd : 0 ≤ xr - xl := by linarith
      refine ⟨?_, ?_, hacc, by dsimp only; omega, by dsimp only; omega⟩
      · have := mul_nonneg h0 hd
        simp only
        linarith
      · have := mul_le_of_le_one_left hd h1
        simp only
        linarith
    · exact absurd h (by simp)
  | succ fuel ih =>
    intro xl xr k ev res hxl hxr hrng h
    simp only [shrinkLoop] at h
    split at h
    · rename_i hacc
      injection h with h1
      subst h1
      obtain ⟨h0, h1⟩ := hrng k le_rfl
      have hd : 0 ≤ xr - xl := by linarith
      refine ⟨?_, ?_, hacc, by dsimp only; omega, by dsimp only; omega⟩
      · have := mul_nonneg h0 hd
        simp only
        linarith
      · have := mul_le_of_le_one_left hd h1
        simp only
        linarith
    · rename_i hacc
      split at h
      · rename_i hgt
        obtain ⟨a, b, c, d, e⟩ :=
          ih xl (xl + rng k * (xr - xl)) (k + 1) (ev + 1) res hxl (le_of_lt hgt)
            (fun i hi => hrng i (by omega)) h
        exact ⟨a, b, c, by omega, by omega⟩
      · rename_i hle
        obtain ⟨a, b, c, d, e⟩ :=
          ih (xl + rng k * (xr - xl)) xr (k + 1) (ev + 1) res (not_lt.mp hle) hxr
            (fun i hi => hrng i (by omega)) h
        exact ⟨a, b, c, by omega, by omega⟩

end SliceSampling

/-- **C1**: in `SliceSampling.sample`, at the moment a proposal is
accepted in the shrink-and-accept loop, the bracket invariant
`xl ≤ x ≤ xr` holds for the accepted `x`, and `log_p(x) > log_u` for that
`x` (`log_u` being the slice level `log_px + log u0` drawn at entry `k`);
the invariant is established by the randomized bracket construction and
preserved by the step-out extensions and every shrink step. -/
theorem slice_bracket_invariant_at_acceptance
    (log_p : LogDensity) (s : SliceSampling) (rng : ℕ → ℚ) (k fuel : ℕ)
    (res : SliceSampling.SampleResult)
    (hw : 0 ≤ s.w) (hrng : ∀ i, k + 1 ≤ i → 0 ≤ rng i ∧ rng i ≤ 1)
    (h : SliceSampling.sample log_p s rng k fuel = some res) :
    res.xl ≤ res.val ∧ res.val ≤ res.xr ∧
      log_p res.val > log_p s.x + ((rng k : ℚ) : WithBot ℚ) := by
  simp only [SliceSampling.sample] at h
  split at h
  · exact absurd h (by simp)
  · rename_i xl1 ev1 hL
    split at h
    · exact absurd h (by simp)
    · rename_i xr1 ev2 hR
      split at h
      · exact absurd h (by simp)
      · rename_i shres hS
        injection h with h1
        subst h1
        obtain ⟨-, nL, hxl1, -⟩ :=
          SliceSampling.stepOutLeft_spec log_p s.w _ fuel _ _ _ _ hL
        obtain ⟨-, nR, hxr1, -⟩ :=
          SliceSampling.stepOutRight_spec log_p s.w _ fuel _ _ _ _ hR
        obtain ⟨hr0, hr1⟩ := hrng (k + 1) le_rfl
        have hxl_le : xl1 ≤ s.x := by
          rw [hxl1]
          have h1 : 0 ≤ (nL : ℚ) * s.w := mul_nonneg (by positivity) hw
          have h2 : 0 ≤ rng (k + 1) * s.w := mul_nonneg hr0 hw
          linarith
        have hxr_ge : s.x ≤ xr1 := by
          rw [hxr1]
          have h1 : 0 ≤ (nR : ℚ) * s.w := mul_nonneg (by positivity) hw
          have h2 : 0 ≤ (1 - rng (k + 1)) * s.w := mul_nonneg (by linarith) hw
          linarith
        obtain ⟨a, b, c, -, -⟩ :=
          SliceSampling.shrinkLoop_spec log_p s.x _ rng fuel xl1 xr1 (k + 2)
            ev2 shres hxl_le hxr_ge (fun i hi => hrng i (by omega)) hS
        exact ⟨a, b, c⟩

/-- Concrete evaluation of one `sample` call on the box density from
`x=0, w=1` with stream `(-1, 1/2, 1/2, …)`: accepted value `0`, final
bracket `[-5/2, 5/2]`, `8` density evaluations, `3` draws consumed. -/
theorem boxSample_eq : SliceSampling.sample boxLogP boxState boxRng 0 5 =
    some ⟨0, -5/2, 5/2, ⟨0, 1, 1, 8⟩, 3⟩ := by
  norm_num [SliceSampling.sample, SliceSampling.stepOutLeft, SliceSampling.stepOutRight,
    SliceSampling.shrinkLoop, boxLogP, boxRng, boxState, ← WithBot.coe_add]

/-- Witness for C1: the box density, state `x=0, w=1`, stream
`(-1, 1/2, 1/2, …)`; the accepted sample `0` lies in the final bracket
`[-5/2, 5/2]` and is above the slice level `-1`. -/
theorem slice_bracket_invariant_at_acceptance_witness :
    (-5/2 : ℚ) ≤ 0 ∧ (0 : ℚ) ≤ 5/2 ∧
      boxLogP 0 > boxLogP 0 + ((boxRng 0 : ℚ) : WithBot ℚ) :=
  slice_bracket_invariant_at_acceptance boxLogP boxState boxRng 0 5
    ⟨0, -5/2, 5/2, ⟨0, 1, 1, 8⟩, 3⟩ (by norm_num [boxState])
    (by
      intro i hi
      have hne : i ≠ 0 := by omega
      norm_num [boxRng, hne])
    boxSample_eq

/-- The shrink loop consumes exactly one stream draw and performs exactly
one density evaluation per iteration: cursor and evaluation counter
advance in lockstep. -/
theorem shrinkLoop_count (log_p : LogDensity) (x : ℚ) (logu : WithBot ℚ)
    (rng : ℕ → ℚ) :
    ∀ fuel xl xr k ev res,
      SliceSampling.shrinkLoop log_p x logu rng fuel xl xr k ev = some res →
      res.k + ev = k + res.evals ∧ k < res.k := by
  intro fuel
  induction fuel with
  | zero =>
    intro xl xr k ev res h
    simp only [SliceSampling.shrinkLoop] at h
    split at h
    · injection h with h1
      subst h1
      constructor <;> · dsimp only; omega
    · exact absurd h (by simp)
  | succ fuel ih =>
    intro xl xr k ev res h
    simp only [SliceSampling.shrinkLoop] at h
    split at h
    · injection h with h1
      subst h1
      constructor <;> · dsimp only; omega
    · split at h
      · obtain ⟨a, b⟩ := ih _ _ _ _ _ h
        omega
      · obtain ⟨a, b⟩ := ih _ _ _ _ _ h
        omega

/-- **C3**: when the step-out phase of `SliceSampling.sample` finishes,
both bracket endpoints lie at or below the slice level
(`log_p(xl) ≤ log_u` and `log_p(xr) ≤ log_u`), and every evaluation of
`log_p` performed during the call increments `evals` by exactly one: the
initial evaluation contributes `1`, the step-out loops contribute their
`nL+1` and `nR+1` evaluations, and the shrink loop contributes one per
draw consumed, so the counters add up exactly. -/
theorem slice_stepout_below_level_and_eval_accounting
    (log_p : LogDensity) (s : SliceSampling) (rng : ℕ → ℚ) (k fuel : ℕ)
    (res : SliceSampling.SampleResult)
    (h : SliceSampling.sample log_p s rng k fuel = some res) :
    ∃ (xl1 xr1 : ℚ) (ev1 ev2 nL nR : ℕ),
      SliceSampling.stepOutLeft log_p s.w (log_p s.x + ((rng k : ℚ) : WithBot ℚ)) fuel
          (s.x - rng (k + 1) * s.w) (s.evals + 1) = some (xl1, ev1) ∧
      SliceSampling.stepOutRight log_p s.w (log_p s.x + ((rng k : ℚ) : WithBot ℚ)) fuel
          (s.x + (1 - rng (k + 1)) * s.w) ev1 = some (xr1, ev2) ∧
      log_p xl1 ≤ log_p s.x + ((rng k : ℚ) : WithBot ℚ) ∧
      log_p xr1 ≤ log_p s.x + ((rng k : ℚ) : WithBot ℚ) ∧
      xl1 = s.x - rng (k + 1) * s.w - (nL : ℚ) * s.w ∧
      xr1 = s.x + (1 - rng (k + 1)) * s.w + (nR : ℚ) * s.w ∧
      ev1 = s.evals + 1 + nL + 1 ∧
      ev2 = ev1 + nR + 1 ∧
      res.state.evals + (k + 2) = ev2 + res.k ∧ k + 2 < res.k := by
  simp only [SliceSampling.sample] at h
  split at h
  · exact absurd h (by simp)
  · rename_i xl1 ev1 hL
    split at h
    · exact absurd h (by simp)
    · rename_i xr1 ev2 hR
      split at h
      · exact absurd h (by simp)
      · rename_i shres hS
        injection h with h1
        subst h1
        obtain ⟨hL2, nL, hxl1, hevL⟩ :=
          SliceSampling.stepOutLeft_spec log_p s.w _ fuel _ _ _ _ hL
        obtain ⟨hR2, nR, hxr1, hevR⟩ :=
          SliceSampling.stepOutRight_spec log_p s.w _ fuel _ _ _ _ hR
        obtain ⟨hacct, hklt⟩ := shrinkLoop_count log_p s.x _ rng fuel _ _ _ _ _ hS
        refine ⟨xl1, xr1, ev1, ev2, nL, nR, hL, hR, not_lt.mp hL2, not_lt.mp hR2,
          hxl1, hxr1, by omega, by omega, ?_, ?_⟩
        · dsimp only
          omega
        · dsimp only
          omega

/-- Witness for C3 at the box density: `nL = nR = 2` step-out extensions
on each side, step-out endpoints `-5/2` and `5/2` both at level `⊥ ≤ -1`,
and `8 = 1 + 3 + 3 + 1` evaluations for `1` shrink draw. -/
theorem slice_stepout_below_level_and_eval_accounting_witness :
    ∃ (xl1 xr1 : ℚ) (ev1 ev2 nL nR : ℕ),
      SliceSampling.stepOutLeft boxLogP boxState.w
          (boxLogP boxState.x + ((boxRng 0 : ℚ) : WithBot ℚ)) 5
          (boxState.x - boxRng 1 * boxState.w) (boxState.evals + 1) = some (xl1, ev1) ∧
      SliceSampling.stepOutRight boxLogP boxState.w
          (boxLogP boxState.x + ((boxRng 0 : ℚ) : WithBot ℚ)) 5
          (boxState.x + (1 - boxRng 1) * boxState.w) ev1 = some (xr1, ev2) ∧
      boxLogP xl1 ≤ boxLogP boxState.x + ((boxRng 0 : ℚ) : WithBot ℚ) ∧
      boxLogP xr1 ≤ boxLogP boxState.x + ((boxRng 0 : ℚ) : WithBot ℚ) ∧
      xl1 = boxState.x - boxRng 1 * boxState.w - (nL : ℚ) * boxState.w ∧
      xr1 = boxState.x + (1 - boxRng 1) * boxState.w + (nR : ℚ) * boxState.w ∧
      ev1 = boxState.evals + 1 + nL + 1 ∧
      ev2 = ev1 + nR + 1 ∧
      8 + (0 + 2) = ev2 + 3 ∧ 0 + 2 < 3 :=
  slice_stepout_below_level_and_eval_accounting boxLogP boxState boxRng 0 5
    ⟨0, -5/2, 5/2, ⟨0, 1, 1, 8⟩, 3⟩ boxSample_eq

/-- If the target is at or below the slice level everywhere left of some
bound `B`, the left step-out loop terminates once given `n` iterations of
fuel with `xl ≤ B + n·w`. -/
theorem stepOutLeft_total_of_bound (log_p : LogDensity) (w : ℚ) (logu : WithBot ℚ)
    (B : ℚ) (hB : ∀ y, y ≤ B → ¬ log_p y > logu) :
    ∀ (n : ℕ) (xl : ℚ) (ev : ℕ), xl ≤ B + (n : ℚ) * w →
      ∃ p, SliceSampling.stepOutLeft log_p w logu n xl ev = some p := by
  intro n
  induction n with
  | zero =>
    intro xl ev hle
    have hc : ¬ log_p xl > logu := hB xl (by push_cast at hle; linarith)
    exact ⟨(xl, ev + 1), by simp [SliceSampling.stepOutLeft, hc]⟩
  | succ n ih =>
    intro xl ev hle
    by_cases hc : log_p xl > logu
    · obtain ⟨p, hp⟩ := ih (xl - w) (ev + 1) (by push_cast at hle ⊢; linarith)
      exact ⟨p, by simp [SliceSampling.stepOutLeft, hc, hp]⟩
    · exact ⟨(xl, ev + 1), by simp [SliceSampling.stepOutLeft, hc]⟩

/-- Right-hand analogue of `stepOutLeft_total_of_bound`. -/
theorem stepOutRight_total_of_bound (log_p : LogDensity) (w : ℚ) (logu : WithBot ℚ)
    (B : ℚ) (hB : ∀ y, B ≤ y → ¬ log_p y > logu) :
    ∀ (n : ℕ) (xr : ℚ) (ev : ℕ), B - (n : ℚ) * w ≤ xr →
      ∃ p, SliceSampling.stepOutRight log_p w logu n xr ev = some p := by
  intro n
  induction n with
  | zero =>
    intro xr ev hle
    have hc : ¬ log_p xr > logu := hB xr (by push_cast at hle; linarith)
    exact ⟨(xr, ev + 1), by simp [SliceSampling.stepOutRight, hc]⟩
  | succ n ih =>
    intro xr ev hle
    by_cases hc : log_p xr > logu
    · obtain ⟨p, hp⟩ := ih (xr + w) (ev + 1) (by push_cast at hle ⊢; linarith)
      exact ⟨p, by simp [SliceSampling.stepOutRight, hc, hp]⟩
    · exact ⟨(xr, ev + 1), by simp [SliceSampling.stepOutRight, hc]⟩

/-- If the target is strictly above the slice level on the whole ray left
of `xl`, the left step-out loop exhausts any fuel: it loops forever. -/
theorem stepOutLeft_none_of_ray (log_p : LogDensity) (w : ℚ) (logu : WithBot ℚ)
    (hw : 0 ≤ w) :
    ∀ (fuel : ℕ) (xl : ℚ) (ev : ℕ), (∀ y, y ≤ xl → log_p y > logu) →
      SliceSampling.stepOutLeft log_p w logu fuel xl ev = none := by
  intro fuel
  induction fuel with
  | zero =>
    intro xl ev hray
    simp [SliceSampling.stepOutLeft, hray xl le_rfl]
  | succ fuel ih =>
    intro xl ev hray
    have hrec := ih (xl - w) (ev + 1) (fun y hy => hray y (by linarith))
    simp [SliceSampling.stepOutLeft, hray xl le_rfl, hrec]

/-- Right-hand analogue of `stepOutLeft_none_of_ray`. -/
theorem stepOutRight_none_of_ray (log_p : LogDensity) (w : ℚ) (logu : WithBot ℚ)
    (hw : 0 ≤ w) :
    ∀ (fuel : ℕ) (xr : ℚ) (ev : ℕ), (∀ y, xr ≤ y → log_p y > logu) →
      SliceSampling.stepOutRight log_p w logu fuel xr ev = none := by
  intro fuel
  induction fuel with
  | zero =>
    intro xr ev hray
    simp [SliceSampling.stepOutRight, hray xr le_rfl]
  | succ fuel ih =>
    intro xr ev hray
    have hrec := ih (xr + w) (ev + 1) (fun y hy => hray y (by linarith))
    simp [SliceSampling.stepOutRight, hray xr le_rfl, hrec]

/-- **C6**: termination structure of the loops in `SliceSampling.sample`.
(i) Every rejection of the shrink-and-accept loop with a unit draw in the
open interval `(0,1)` strictly shrinks the bracket and keeps the current
point inside it; (ii) the step-out loops, which carry no iteration cap,
terminate (for some finite fuel) whenever the region above the slice
level is bounded on the corresponding side; (iii) they loop indefinitely
(exhaust every fuel) on a density whose support above the slice level
contains the whole ray beyond the bracket end. -/
theorem slice_loop_termination_structure :
    (∀ (log_p : LogDensity) (x : ℚ) (logu : WithBot ℚ) (rng : ℕ → ℚ)
        (fuel : ℕ) (xl xr : ℚ) (k ev : ℕ),
      xl < xr → 0 < rng k → rng k < 1 →
      ¬ log_p (xl + rng k * (xr - xl)) > logu →
      ∃ xl' xr',
        SliceSampling.shrinkLoop log_p x logu rng (fuel + 1) xl xr k ev =
          SliceSampling.shrinkLoop log_p x logu rng fuel xl' xr' (k + 1) (ev + 1) ∧
        xr' - xl' < xr - xl ∧ (xl ≤ x → x ≤ xr → xl' ≤ x ∧ x ≤ xr')) ∧
    (∀ (log_p : LogDensity) (w : ℚ) (logu : WithBot ℚ) (xl : ℚ) (ev : ℕ) (B : ℚ),
      0 < w → (∀ y, y ≤ B → ¬ log_p y > logu) →
      ∃ fuel p, SliceSampling.stepOutLeft log_p w logu fuel xl ev = some p) ∧
    (∀ (log_p : LogDensity) (w : ℚ) (logu : WithBot ℚ) (xr : ℚ) (ev : ℕ) (B : ℚ),
      0 < w → (∀ y, B ≤ y → ¬ log_p y > logu) →
      ∃ fuel p, SliceSampling.stepOutRight log_p w logu fuel xr ev = some p) ∧
    (∀ (log_p : LogDensity) (w : ℚ) (logu : WithBot ℚ) (xl : ℚ) (ev : ℕ),
      0 ≤ w → (∀ y, y ≤ xl → log_p y > logu) →
      ∀ fuel, SliceSampling.stepOutLeft log_p w logu fuel xl ev = none) ∧
    (∀ (log_p : LogDensity) (w : ℚ) (logu : WithBot ℚ) (xr : ℚ) (ev : ℕ),
      0 ≤ w → (∀ y, xr ≤ y → log_p y > logu) →
      ∀ fuel, SliceSampling.stepOutRight log_p w logu fuel xr ev = none) := by
  refine ⟨?_, ?_, ?_, ?_, ?_⟩
  · intro log_p x logu rng fuel xl xr k ev hlt h0 h1 hrej
    have hd : 0 < xr - xl := by linarith
    by_cases hgt : xl + rng k * (xr - xl) > x
    · refine ⟨xl, xl + rng k * (xr - xl), ?_, ?_, ?_⟩
      · simp [SliceSampling.shrinkLoop, hrej, hgt]
      · nlinarith
      · exact fun hx1 hx2 => ⟨hx1, le_of_lt hgt⟩
    · refine ⟨xl + rng k * (xr - xl), xr, ?_, ?_, ?_⟩
      · simp [SliceSampling.shrinkLoop, hrej, hgt]
      · nlinarith
      · exact fun hx1 hx2 => ⟨not_lt.mp hgt, hx2⟩
  · intro log_p w logu xl ev B hw hB
    obtain ⟨n, hn⟩ := exists_nat_gt ((xl - B) / w)
    have hxl : xl ≤ B + (n : ℚ) * w := by
      have := (div_lt_iff₀ hw).mp hn
      linarith
    obtain ⟨p, hp⟩ := stepOutLeft_total_of_bound log_p w logu B hB n xl ev hxl
    exact ⟨n, p, hp⟩
  · intro log_p w logu xr ev B hw hB
    obtain ⟨n, hn⟩ := exists_nat_gt ((B - xr) / w)
    have hxr : B - (n : ℚ) * w ≤ xr := by
      have := (div_lt_iff₀ hw).mp hn
      linarith
    obtain ⟨p, hp⟩ := stepOutRight_total_of_bound log_p w logu B hB n xr ev hxr
    exact ⟨n, p, hp⟩
  · intro log_p w logu xl ev hw hray fuel
    exact stepOutLeft_none_of_ray log_p w logu hw fuel xl ev hray
  · intro log_p w logu xr ev hw hray fuel
    exact stepOutRight_none_of_ray log_p w logu hw fuel xr ev hray

/-- Witness for C6: each conjunct exercised at concrete data — a
rejecting draw `1/2` on bracket `[0,1]` with the everywhere-`⊥` density
(strict shrink), the everywhere-`⊥` density for bounded step-out
(terminates), and the constant density `1` above level `0` for the
unbounded case (loops at fuel `7`). -/
theorem slice_loop_termination_structure_witness :
    (∃ xl' xr',
      SliceSampling.shrinkLoop (fun _ => ⊥) 0 ((0 : ℚ) : WithBot ℚ) (fun _ => 1/2) 1 0 1 0 0 =
        SliceSampling.shrinkLoop (fun _ => ⊥) 0 ((0 : ℚ) : WithBot ℚ) (fun _ => 1/2) 0 xl' xr' 1 1 ∧
      xr' - xl' < 1 - 0 ∧ ((0 : ℚ) ≤ 0 → (0 : ℚ) ≤ 1 → xl' ≤ 0 ∧ (0 : ℚ) ≤ xr')) ∧
    (∃ fuel p, SliceSampling.stepOutLeft (fun _ => ⊥) 1 ((0 : ℚ) : WithBot ℚ) fuel 0 0 = some p) ∧
    (∃ fuel p, SliceSampling.stepOutRight (fun _ => ⊥) 1 ((0 : ℚ) : WithBot ℚ) fuel 0 0 = some p) ∧
    SliceSampling.stepOutLeft (fun _ => ((1 : ℚ) : WithBot ℚ)) 1 ((0 : ℚ) : WithBot ℚ) 7 0 0 = none ∧
    SliceSampling.stepOutRight (fun _ => ((1 : ℚ) : WithBot ℚ)) 1 ((0 : ℚ) : WithBot ℚ) 7 0 0 = none := by
  refine ⟨?_, ?_, ?_, ?_, ?_⟩
  · exact slice_loop_termination_structure.1 (fun _ => ⊥) 0 _ (fun _ => 1/2) 0 0 1 0 0
      (by norm_num) (by norm_num) (by norm_num) (by simp)
  · exact slice_loop_termination_structure.2.1 (fun _ => ⊥) 1 _ 0 0 0 (by norm_num)
      (fun y hy => by simp)
  · exact slice_loop_termination_structure.2.2.1 (fun _ => ⊥) 1 _ 0 0 0 (by norm_num)
      (fun y hy => by simp)
  · exact slice_loop_termination_structure.2.2.2.1 (fun _ => ((1 : ℚ) : WithBot ℚ)) 1 _ 0 0
      (by norm_num) (fun y hy => by norm_num [WithBot.coe_lt_coe]) 7
  · exact slice_loop_termination_structure.2.2.2.2 (fun _ => ((1 : ℚ) : WithBot ℚ)) 1 _ 0 0
      (by norm_num) (fun y hy => by norm_num [WithBot.coe_lt_coe]) 7

/-- **C2**: for each of the three samplers, every terminating `sample()`
call returns exactly one new sample and the returned value equals the
post-call state `x` (the state is updated in place as one Markov chain
step); for `SliceSampling` the sample counter advances by exactly one. -/
theorem sample_returns_updated_state :
    (∀ (log_p : LogDensity) (s : SliceSampling) (rng : ℕ → ℚ) (k fuel : ℕ)
        (res : SliceSampling.SampleResult),
      SliceSampling.sample log_p s rng k fuel = some res →
      res.state.x = res.val ∧ res.state.samples = s.samples + 1 ∧ res.state.w = s.w) ∧
    (∀ (n : ℕ) (log_p : (Fin n → ℚ) → WithBot ℚ) (uni : UniSampler)
        (m : MultiSampling n) (rng : ℕ → ℚ) (k : ℕ) (v : Fin n → ℚ)
        (m' : MultiSampling n) (k' : ℕ),
      MultiSampling.sample log_p uni m rng k = some (v, m', k') → m'.x = v) ∧
    (∀ (α : Type) (g : GibbsSampling α) (v : List α) (g' : GibbsSampling α),
      GibbsSampling.sample g = some (v, g') → g'.x = v) := by
  refine ⟨?_, ?_, ?_⟩
  · intro log_p s rng k fuel res h
    simp only [SliceSampling.sample] at h
    split at h
    · exact absurd h (by simp)
    · split at h
      · exact absurd h (by simp)
      · split at h
        · exact absurd h (by simp)
        · injection h with h1
          subst h1
          exact ⟨rfl, rfl, rfl⟩
  · intro n log_p uni m rng k v m' k' h
    simp only [MultiSampling.sample] at h
    split at h
    · exact absurd h (by simp)
    · rename_i p hp
      injection h with h1
      obtain ⟨rfl, rfl, rfl⟩ := by simpa using h1
      rfl
  · intro α g v g' h
    simp only [GibbsSampling.sample] at h
    split at h
    · exact absurd h (by simp)
    · rename_i w hw
      injection h with h1
      obtain ⟨rfl, rfl⟩ := by simpa using h1
      rfl

/-- Witness for C2: the box slice run returns `0` with post-state
`x = 0`, `samples = 1`; the concrete multi run returns `5 + 2·1` with
post-state equal to it; the shape-mismatch Gibbs run returns `[[1,2,3]]`
with post-state equal to it. -/
theorem sample_returns_updated_state_witness :
    ((⟨0, 1, 1, 8⟩ : SliceSampling).x = (0 : ℚ) ∧
      (⟨0, 1, 1, 8⟩ : SliceSampling).samples = boxState.samples + 1 ∧
      (⟨0, 1, 1, 8⟩ : SliceSampling).w = boxState.w) ∧
    (⟨fun _ => (5 : ℚ) + 2 * 1, [fun _ => 1]⟩ : MultiSampling 1).x =
      (fun _ => (5 : ℚ) + 2 * 1) ∧
    (⟨gDim.transitions, [[1, 2, 3]]⟩ : GibbsSampling (List ℚ)).x = [[1, 2, 3]] :=
  ⟨sample_returns_updated_state.1 boxLogP boxState boxRng 0 5
      ⟨0, -5/2, 5/2, ⟨0, 1, 1, 8⟩, 3⟩ boxSample_eq,
    sample_returns_updated_state.2.1 1 lp1 uniTwo m1 zeroRng 0
      (fun _ => (5 : ℚ) + 2 * 1) ⟨fun _ => (5 : ℚ) + 2 * 1, [fun _ => 1]⟩ 1 rfl,
    sample_returns_updated_state.2.2 (List ℚ) gDim [[1, 2, 3]]
      ⟨gDim.transitions, [[1, 2, 3]]⟩ rfl⟩

/-- The left step-out is an evaluation-counter homomorphism: the counter
input only offsets the counter output. -/
theorem stepOutLeft_evals_shift (log_p : LogDensity) (w : ℚ) (logu : WithBot ℚ) :
    ∀ (fuel : ℕ) (xl : ℚ) (ev : ℕ),
      SliceSampling.stepOutLeft log_p w logu fuel xl ev =
        (SliceSampling.stepOutLeft log_p w logu fuel xl 0).map
          (fun p => (p.1, p.2 + ev)) := by
  intro fuel
  induction fuel with
  | zero =>
    intro xl ev
    by_cases hc : log_p xl > logu
    · simp [SliceSampling.stepOutLeft, hc]
    · simp [SliceSampling.stepOutLeft, hc]
      omega
  | succ fuel ih =>
    intro xl ev
    by_cases hc : log_p xl > logu
    · simp only [SliceSampling.stepOutLeft, if_pos hc]
      rw [ih (xl - w) (ev + 1), ih (xl - w) (0 + 1)]
      cases SliceSampling.stepOutLeft log_p w logu fuel (xl - w) 0 with
      | none => simp
      | some p =>
        simp
        omega
    · simp [SliceSampling.stepOutLeft, hc]
      omega

/-- Right-hand analogue of `stepOutLeft_evals_shift`. -/
theorem stepOutRight_evals_shift (log_p : LogDensity) (w : ℚ) (logu : WithBot ℚ) :
    ∀ (fuel : ℕ) (xr : ℚ) (ev : ℕ),
      SliceSampling.stepOutRight log_p w logu fuel xr ev =
        (SliceSampling.stepOutRight log_p w logu fuel xr 0).map
          (fun p => (p.1, p.2 + ev)) := by
  intro fuel
  induction fuel with
  | zero =>
    intro xr ev
    by_cases hc : log_p xr > logu
    · simp [SliceSampling.stepOutRight, hc]
    · simp [SliceSampling.stepOutRight, hc]
      omega
  | succ fuel ih =>
    intro xr ev
    by_cases hc : log_p xr > logu
    · simp only [SliceSampling.stepOutRight, if_pos hc]
      rw [ih (xr + w) (ev + 1), ih (xr + w) (0 + 1)]
      cases SliceSampling.stepOutRight log_p w logu fuel (xr + w) 0 with
      | none => simp
      | some p =>
        simp
        omega
    · simp [SliceSampling.stepOutRight, hc]
      omega

/-- The shrink loop is an evaluation-counter homomorphism. -/
theorem shrinkLoop_evals_shift (log_p : LogDensity) (x : ℚ) (logu : WithBot ℚ)
    (rng : ℕ → ℚ) :
    ∀ (fuel : ℕ) (xl xr : ℚ) (k ev : ℕ),
      SliceSampling.shrinkLoop log_p x logu rng fuel xl xr k ev =
        (SliceSampling.shrinkLoop log_p x logu rng fuel xl xr k 0).map
          (fun r => ⟨r.val, r.xl, r.xr, r.k, r.evals + ev⟩) := by
  intro fuel
  induction fuel with
  | zero =>
    intro xl xr k ev
    by_cases hc : log_p (xl + rng k * (xr - xl)) > logu
    · simp [SliceSampling.shrinkLoop, hc]
      omega
    · simp [SliceSampling.shrinkLoop, hc]
  | succ fuel ih =>
    intro xl xr k ev
    by_cases hc : log_p (xl + rng k * (xr - xl)) > logu
    · simp [SliceSampling.shrinkLoop, hc]
      omega
    · by_cases hgt : xl + rng k * (xr - xl) > x
      · simp only [SliceSampling.shrinkLoop, if_neg hc, if_pos hgt]
        rw [ih xl (xl + rng k * (xr - xl)) (k + 1) (ev + 1),
            ih xl (xl + rng k * (xr - xl)) (k + 1) (0 + 1)]
        cases SliceSampling.shrinkLoop log_p x logu rng fuel xl
            (xl + rng k * (xr - xl)) (k + 1) 0 with
        | none => simp
        | some r =>
          simp
          omega
      · simp only [SliceSampling.shrinkLoop, if_neg hc, if_neg hgt]
        rw [ih (xl + rng k * (xr - xl)) xr (k + 1) (ev + 1),
            ih (xl + rng k * (xr - xl)) xr (k + 1) (0 + 1)]
        cases SliceSampling.shrinkLoop log_p x logu rng fuel
            (xl + rng k * (xr - xl)) xr (k + 1) 0 with
        | none => simp
        | some r =>
          simp
          omega

/-- A full `sample` call is independent of the diagnostic counters except
for offsetting them: it equals the call from zeroed counters with
`samples` and `evals` shifted. -/
theorem sample_counters_shift (log_p : LogDensity) (rng : ℕ → ℚ) (k fuel : ℕ)
    (x w : ℚ) (c e : ℕ) :
    SliceSampling.sample log_p ⟨x, w, c, e⟩ rng k fuel =
      (SliceSampling.sample log_p ⟨x, w, 0, 0⟩ rng k fuel).map
        (fun r => ⟨r.val, r.xl, r.xr,
          ⟨r.state.x, r.state.w, r.state.samples + c, r.state.evals + e⟩, r.k⟩) := by
  simp only [SliceSampling.sample]
  rw [stepOutLeft_evals_shift log_p w _ fuel (x - rng (k + 1) * w) (e + 1),
      stepOutLeft_evals_shift log_p w _ fuel (x - rng (k + 1) * w) (0 + 1)]
  cases SliceSampling.stepOutLeft log_p w (log_p x + ((rng k : ℚ) : WithBot ℚ)) fuel
      (x - rng (k + 1) * w) 0 with
  | none => rfl
  | some pL =>
    obtain ⟨xl1, b1⟩ := pL
    simp only [Option.map_some']
    rw [stepOutRight_evals_shift log_p w _ fuel (x + (1 - rng (k + 1)) * w) (b1 + (e + 1)),
        stepOutRight_evals_shift log_p w _ fuel (x + (1 - rng (k + 1)) * w) (b1 + (0 + 1))]
    cases SliceSampling.stepOutRight log_p w (log_p x + ((rng k : ℚ) : WithBot ℚ)) fuel
        (x + (1 - rng (k + 1)) * w) 0 with
    | none => simp
    | some pR =>
      obtain ⟨xr1, b2⟩ := pR
      simp only [Option.map_some']
      rw [shrinkLoop_evals_shift log_p x _ rng fuel xl1 xr1 (k + 2) (b2 + (b1 + (e + 1))),
          shrinkLoop_evals_shift log_p x _ rng fuel xl1 xr1 (k + 2) (b2 + (b1 + (0 + 1)))]
      cases SliceSampling.shrinkLoop log_p x (log_p x + ((rng k : ℚ) : WithBot ℚ)) rng fuel
          xl1 xr1 (k + 2) 0 with
      | none => simp
      | some rr =>
        simp
        omega

/-- **C7**: two `SliceSampling` instances constructed with identical
`(log_p, x, w)` and driven by identical injected random streams produce
identical sample sequences: `sample()` is a deterministic function of the
current state and the injected draws (the embedding takes no other
input), and the sequence of returned values does not even depend on the
diagnostic counters `samples`/`evals` of the two instances. -/
theorem slice_run_deterministic
    (log_p : LogDensity) (rng : ℕ → ℚ) (fuel : ℕ) :
    ∀ (n : ℕ) (x w : ℚ) (c1 e1 c2 e2 k : ℕ),
      sliceRun log_p rng fuel n ⟨x, w, c1, e1⟩ k =
        sliceRun log_p rng fuel n ⟨x, w, c2, e2⟩ k := by
  intro n
  induction n with
  | zero => intro x w c1 e1 c2 e2 k; rfl
  | succ n ih =>
    intro x w c1 e1 c2 e2 k
    simp only [sliceRun]
    rw [sample_counters_shift log_p rng k fuel x w c1 e1,
        sample_counters_shift log_p rng k fuel x w c2 e2]
    cases SliceSampling.sample log_p ⟨x, w, 0, 0⟩ rng k fuel with
    | none => rfl
    | some r =>
      simp only [Option.map_some']
      exact congrArg (r.val :: ·) (ih r.state.x r.state.w _ _ _ _ r.k)

/-- A step-out loop whose entry point is already at or below the slice
level returns immediately, whatever the fuel. -/
theorem stepOutLeft_immediate (log_p : LogDensity) (w : ℚ) (logu : WithBot ℚ)
    (xl : ℚ) (ev : ℕ) (hc : ¬ log_p xl > logu) :
    ∀ fuel, SliceSampling.stepOutLeft log_p w logu fuel xl ev = some (xl, ev + 1) := by
  intro fuel
  cases fuel <;> simp [SliceSampling.stepOutLeft, hc]

/-- Right-hand analogue of `stepOutLeft_immediate`. -/
theorem stepOutRight_immediate (log_p : LogDensity) (w : ℚ) (logu : WithBot ℚ)
    (xr : ℚ) (ev : ℕ) (hc : ¬ log_p xr > logu) :
    ∀ fuel, SliceSampling.stepOutRight log_p w logu fuel xr ev = some (xr, ev + 1) := by
  intro fuel
  cases fuel <;> simp [SliceSampling.stepOutRight, hc]

/-- On the degenerate target, with shrink draws all `0`, every proposal is
the left bracket endpoint; as long as that endpoint is not the support
point, its log-density is `⊥`, never above the slice level, so the shrink
loop rejects forever and exhausts any fuel. -/
theorem shrinkLoop_deg_none (r : ℚ) (logu : WithBot ℚ) :
    ∀ (fuel : ℕ) (xl xr : ℚ) (k ev : ℕ), xl ≠ 0 → 2 ≤ k →
      SliceSampling.shrinkLoop degLogP 0 logu (degRng r) fuel xl xr k ev = none := by
  intro fuel
  induction fuel with
  | zero =>
    intro xl xr k ev hxl hk
    have hrk : degRng r k = 0 := by
      have h0 : k ≠ 0 := by omega
      have h1 : k ≠ 1 := by omega
      simp [degRng, h0, h1]
    simp [SliceSampling.shrinkLoop, hrk, degLogP, hxl]
  | succ fuel ih =>
    intro xl xr k ev hxl hk
    have hrk : degRng r k = 0 := by
      have h0 : k ≠ 0 := by omega
      have h1 : k ≠ 1 := by omega
      simp [degRng, h0, h1]
    have hacc : ¬ degLogP (xl + degRng r k * (xr - xl)) > logu := by
      simp [hrk, degLogP, hxl]
    simp only [SliceSampling.shrinkLoop, if_neg hacc]
    split
    · exact ih xl (xl + degRng r k * (xr - xl)) (k + 1) (ev + 1) hxl (by omega)
    · have hxp : xl + degRng r k * (xr - xl) = xl := by rw [hrk]; ring
      rw [hxp]
      exact ih xl xr (k + 1) (ev + 1) hxl (by omega)

/-- On the degenerate target started at the support point, with bracket
placement `0 < r < 1` and shrink draws `0`, a `sample` call exhausts every
fuel: the step-outs stop at once (both endpoints have density zero) and
the shrink loop proposes the left endpoint forever. -/
theorem sliceDeg_aux (r w : ℚ) (hr0 : 0 < r) (hr1 : r < 1) (hw : 0 < w) :
    ∀ fuel, SliceSampling.sample degLogP ⟨0, w, 0, 0⟩ (degRng r) 0 fuel = none := by
  intro fuel
  have hd0 : degRng r 0 = -1 := by simp [degRng]
  have hd1 : degRng r 1 = r := by norm_num [degRng]
  have hrw : 0 < r * w := mul_pos hr0 hw
  have h1w : 0 < (1 - r) * w := mul_pos (by linarith) hw
  have hne1 : (0 : ℚ) - r * w ≠ 0 := by intro h; linarith
  have hne2 : (0 : ℚ) + (1 - r) * w ≠ 0 := by intro h; linarith
  have h1r : (1 : ℚ) - r ≠ 0 := fun h => by linarith
  have hcL : ¬ degLogP ((0 : ℚ) - r * w) > degLogP 0 + ((-1 : ℚ) : WithBot ℚ) := by
    simp [degLogP, hr0.ne', hw.ne']
  have hcR : ¬ degLogP ((0 : ℚ) + (1 - r) * w) > degLogP 0 + ((-1 : ℚ) : WithBot ℚ) := by
    simp [degLogP, h1r, hw.ne']
  simp only [SliceSampling.sample, hd0, hd1,
    stepOutLeft_immediate degLogP w (degLogP 0 + ((-1 : ℚ) : WithBot ℚ))
      ((0 : ℚ) - r * w) (0 + 1) hcL,
    stepOutRight_immediate degLogP w (degLogP 0 + ((-1 : ℚ) : WithBot ℚ))
      ((0 : ℚ) + (1 - r) * w) (0 + 1 + 1) hcR,
    shrinkLoop_deg_none r (degLogP 0 + ((-1 : ℚ) : WithBot ℚ)) fuel
      ((0 : ℚ) - r * w) ((0 : ℚ) + (1 - r) * w) (0 + 2) (0 + 1 + 1 + 1)
      hne1 (by omega)]

/-- Counterexample for C9: on the degenerate target (density zero except
at the single point `0`), `SliceSampling.sample` neither surfaces any
error nor fails gracefully: with the concrete injected stream
`(-1, 1/3, 0, 0, …)` it is still looping after `1000` iterations of each
loop (and the amended theorem shows it exhausts every fuel bound: the
source loops forever). -/
theorem slice_degenerate_no_error_counterexample :
    SliceSampling.sample degLogP ⟨0, 1, 0, 0⟩ (degRng (1/3)) 0 1000 = none :=
  sliceDeg_aux (1/3) 1 (by norm_num) (by norm_num) (by norm_num) 1000

/-- **C9 (amended)**: on a degenerate target whose density is zero except
at one point, the source has no error path at all: for every bracket
placement `0 < r < 1`, every width `w > 0` and shrink draws `0`, the call
started at the support point returns within no fuel bound — it loops
forever instead of surfacing `InvalidDensityValue` or failing
gracefully. -/
theorem slice_degenerate_loops_forever (r w : ℚ)
    (hr0 : 0 < r) (hr1 : r < 1) (hw : 0 < w) :
    ∀ fuel, SliceSampling.sample degLogP ⟨0, w, 0, 0⟩ (degRng r) 0 fuel = none :=
  sliceDeg_aux r w hr0 hr1 hw

/-- Witness for the amended C9 at `r = 1/2`, `w = 2`, fuel `100`. -/
theorem slice_degenerate_loops_forever_witness :
    SliceSampling.sample degLogP ⟨0, 2, 0, 0⟩ (degRng (1/2)) 0 100 = none :=
  slice_degenerate_loops_forever (1/2) 2 (by norm_num) (by norm_num) (by norm_num) 100

/-- Coordinate updates preserve the state list's length. -/
theorem gibbs_states_length {α : Type} (ts : List (List α → α)) (x : List α) :
    ∀ i, (GibbsSampling.states ts x i).length = x.length := by
  intro i
  induction i with
  | zero => rfl
  | succ i ih =>
    simp only [GibbsSampling.states]
    split
    · simp [ih]
    · exact ih

/-- After `i` updates of a sweep, the coordinates from `i` on still hold
the previous sweep's values. -/
theorem gibbs_states_get_high {α : Type} (ts : List (List α → α)) (x : List α) :
    ∀ i j, i ≤ j → (GibbsSampling.states ts x i).get? j = x.get? j := by
  intro i
  induction i with
  | zero => intro j _; rfl
  | succ i ih =>
    intro j hij
    simp only [GibbsSampling.states]
    split
    · rw [List.get?_set_ne _ _ (by omega)]
      exact ih j (by omega)
    · exact ih j (by omega)

/-- After `i ≤ K` updates of a sweep (with `K ≤ len x`), each coordinate
`j < i` holds `T_j` applied to the state as it was after `j` updates. -/
theorem gibbs_states_get_low {α : Type} (ts : List (List α → α)) (x : List α)
    (hK : ts.length ≤ x.length) :
    ∀ i, i ≤ ts.length → ∀ j, j < i →
      ∃ t, ts.get? j = some t ∧
        (GibbsSampling.states ts x i).get? j =
          some (t (GibbsSampling.states ts x j)) := by
  intro i
  induction i with
  | zero => intro _ j hj; omega
  | succ i ih =>
    intro hi j hj
    have hts : ∃ t, ts.get? i = some t := by
      have : i < ts.length := by omega
      exact ⟨ts.get ⟨i, this⟩, List.get?_eq_get this⟩
    obtain ⟨t, ht⟩ := hts
    by_cases hji : j = i
    · subst hji
      refine ⟨t, ht, ?_⟩
      simp only [GibbsSampling.states, ht]
      rw [List.get?_set_eq_of_lt]
      rw [gibbs_states_length]
      omega
    · obtain ⟨t', ht', hval⟩ := ih (by omega) j (by omega)
      refine ⟨t', ht', ?_⟩
      simp only [GibbsSampling.states, ht]
      rw [List.get?_set_ne _ _ (by omega)]
      exact hval

/-- The source sweep, started at index `i` on the still-to-run suffix of
the transitions, computes exactly the spec-side intermediate states. -/
theorem gibbs_sweepFrom_states {α : Type} (ts : List (List α → α)) (x : List α)
    (hK : ts.length ≤ x.length) :
    ∀ (l : List (List α → α)) (i : ℕ), ts.drop i = l → i ≤ ts.length →
      GibbsSampling.sweepFrom i l (GibbsSampling.states ts x i) =
        some (GibbsSampling.states ts x ts.length) := by
  intro l
  induction l with
  | nil =>
    intro i hdrop hi
    have hlen : ts.length ≤ i := by
      have := congrArg List.length hdrop
      simp [List.length_drop] at this
      omega
    have hieq : i = ts.length := by omega
    subst hieq
    rfl
  | cons t l ih =>
    intro i hdrop hi
    have hget : ts.get? i = some t := by
      have h0 : (ts.drop i).get? 0 = some t := by rw [hdrop]; rfl
      rwa [List.get?_drop, Nat.add_zero] at h0
    have hilt : i < ts.length := by
      by_contra hge
      have : ts.drop i = [] := List.drop_eq_nil_of_le (by omega)
      rw [this] at hdrop
      exact absurd hdrop (by simp)
    have hdrop' : ts.drop (i + 1) = l := by
      have h1 : ts.drop (i + 1) = (ts.drop i).drop 1 := by
        rw [List.drop_drop, Nat.add_comm]
      rw [h1, hdrop]
      rfl
    have hlt : i < (GibbsSampling.states ts x i).length := by
      rw [gibbs_states_length]
      omega
    simp only [GibbsSampling.sweepFrom, if_pos hlt]
    have hnext : (GibbsSampling.states ts x i).set i
        (t (GibbsSampling.states ts x i)) = GibbsSampling.states ts x (i + 1) := by
      simp only [GibbsSampling.states, hget]
    rw [hnext]
    exact ih (i + 1) hdrop' (by omega)

/-- Counterexample for C4 as stated for every state list and transition
sequence: with one transition and the empty state list, the assignment
`x[0] = T_0(x)` raises `IndexError` (modelled `none`); no updated state is
stored or returned, against the claim's universal sweep guarantee. -/
theorem gibbs_empty_state_counterexample :
    GibbsSampling.sample (α := ℚ) ⟨[fun _ => 0], []⟩ = none := rfl

/-- **C4 (amended)**: provided the transition list is not longer than the
state list (`K ≤ len(x)`; the counterexample shows the call raises
`IndexError` otherwise), `GibbsSampling.sample` performs one systematic
sweep: the returned and stored state is the `K`-fold update in index
order, where the argument passed to `T_i` has coordinates `0..i-1`
holding this sweep's new values and coordinates `i..K-1` the previous
sweep's values. -/
theorem gibbs_systematic_sweep {α : Type} (ts : List (List α → α)) (x : List α)
    (hK : ts.length ≤ x.length) :
    GibbsSampling.sample ⟨ts, x⟩ =
      some (GibbsSampling.states ts x ts.length,
        ⟨ts, GibbsSampling.states ts x ts.length⟩) ∧
    (∀ i, i ≤ ts.length → ∀ j, i ≤ j →
      (GibbsSampling.states ts x i).get? j = x.get? j) ∧
    (∀ i, i ≤ ts.length → ∀ j, j < i →
      ∃ t, ts.get? j = some t ∧
        (GibbsSampling.states ts x i).get? j =
          some (t (GibbsSampling.states ts x j))) := by
  refine ⟨?_, ?_, ?_⟩
  · have hsweep := gibbs_sweepFrom_states ts x hK ts 0 rfl (by omega)
    simp only [GibbsSampling.sample]
    rw [show GibbsSampling.states ts x 0 = x from rfl] at hsweep
    rw [hsweep]
  · intro i hi j hij
    exact gibbs_states_get_high ts x i j hij
  · intro i hi j hj
    exact gibbs_states_get_low ts x hK i hi j hj

/-- Witness for the amended C4: a one-transition sweep on state `[5]`
succeeds and stores the swept state. -/
theorem gibbs_systematic_sweep_witness :
    GibbsSampling.sample ⟨[fun _ => (7 : ℚ)], [5]⟩ =
      some (GibbsSampling.states [fun _ => (7 : ℚ)] [5] 1,
        ⟨[fun _ => (7 : ℚ)], GibbsSampling.states [fun _ => (7 : ℚ)] [5] 1⟩) :=
  (gibbs_systematic_sweep [fun _ => (7 : ℚ)] [5] (by simp)).1

/-- Counterexample for C8: `gDim`'s single transition returns a list of
length `3` while the state coordinate it replaces has length `2`; the
call does not fail with any dimension error — it succeeds and silently
stores the malformed state. -/
theorem gibbs_dimension_mismatch_counterexample :
    GibbsSampling.sample gDim = some ([[1, 2, 3]], ⟨gDim.transitions, [[1, 2, 3]]⟩) ∧
      ([1, 2, 3] : List ℚ).length ≠ ([1, 2] : List ℚ).length :=
  ⟨rfl, by decide⟩

/-- **C8 (amended)**: `GibbsSampling.sample` performs no shape
validation: for every transition list and state (with `K ≤ len(x)` so the
index assignments succeed), the call returns normally whatever the shapes
of the conditional-transition outputs, and each output is stored
unchecked.  (`MultiSampling` delegates shape behaviour to numpy array
addition, outside this model; no `DimensionMismatch` error exists
anywhere in the source.) -/
theorem gibbs_no_shape_check (ts : List (List (List ℚ) → List ℚ))
    (x : List (List ℚ)) (hK : ts.length ≤ x.length) :
    GibbsSampling.sample ⟨ts, x⟩ =
      some (GibbsSampling.states ts x ts.length,
        ⟨ts, GibbsSampling.states ts x ts.length⟩) ∧
    ∀ j, j < ts.length →
      ∃ t, ts.get? j = some t ∧
        (GibbsSampling.states ts x ts.length).get? j =
          some (t (GibbsSampling.states ts x j)) := by
  constructor
  · have hsweep := gibbs_sweepFrom_states ts x hK ts 0 rfl (by omega)
    simp only [GibbsSampling.sample]
    rw [show GibbsSampling.states ts x 0 = x from rfl] at hsweep
    rw [hsweep]
  · intro j hj
    exact gibbs_states_get_low ts x hK ts.length le_rfl j hj

/-- Witness for the amended C8 at the shape-mismatched `gDim`: the call
succeeds and coordinate `0` holds the unchecked length-3 output. -/
theorem gibbs_no_shape_check_witness :
    GibbsSampling.sample ⟨gDim.transitions, gDim.x⟩ =
      some (GibbsSampling.states gDim.transitions gDim.x 1,
        ⟨gDim.transitions, GibbsSampling.states gDim.transitions gDim.x 1⟩) ∧
    (∃ t, gDim.transitions.get? 0 = some t ∧
      (GibbsSampling.states gDim.transitions gDim.x 1).get? 0 =
        some (t (GibbsSampling.states gDim.transitions gDim.x 0))) :=
  ⟨(gibbs_no_shape_check gDim.transitions gDim.x (by simp [gDim])).1,
    (gibbs_no_shape_check gDim.transitions gDim.x (by simp [gDim])).2 0 (by simp [gDim])⟩

/-- The direction loop of `MultiSampling.sample` draws exactly the
spec-side draw list and accumulates the state additively along the
directions. -/
theorem loopDirs_spec {n : ℕ} (log_p : (Fin n → ℚ) → WithBot ℚ)
    (uni : UniSampler) (rng : ℕ → ℚ) :
    ∀ (ds : List (Fin n → ℚ)) (x : Fin n → ℚ) (k : ℕ) (v : Fin n → ℚ) (k' : ℕ),
      MultiSampling.loopDirs log_p uni rng ds x k = some (v, k') →
      ∃ us : List ℚ,
        MultiSampling.draws log_p uni rng ds x k = some (us, k') ∧
        us.length = ds.length ∧
        ∀ i, v i = x i + (List.zipWith (fun u d => u * d i) us ds).sum := by
  intro ds
  induction ds with
  | nil =>
    intro x k v k' h
    simp only [MultiSampling.loopDirs, Option.some.injEq, Prod.mk.injEq] at h
    obtain ⟨rfl, rfl⟩ := h
    exact ⟨[], rfl, rfl, fun i => by simp⟩
  | cons d ds ih =>
    intro x k v k' h
    simp only [MultiSampling.loopDirs] at h
    split at h
    · exact absurd h (by simp)
    · rename_i u k1 hp
      obtain ⟨us, hd, hlen, hsum⟩ := ih _ _ _ _ h
      refine ⟨u :: us, ?_, by simp [hlen], ?_⟩
      · simp only [MultiSampling.draws, hp, hd]
      · intro i
        simp only [List.zipWith_cons_cons, List.sum_cons]
        rw [hsum i]
        ring

/-- **C5**: `MultiSampling.sample` processes its direction vectors in
their given order; for each direction it draws one sample from a fresh
1-D sampler built by the factory, at offset `0`, from the density
restricted along that direction at the current partially updated state
(that is the content of `MultiSampling.draws`); the returned state is the
pre-call state plus the sum of the per-direction increments
`u'_k · d_k`, and it is stored as the new state. -/
theorem multi_directions_in_order {n : ℕ} (log_p : (Fin n → ℚ) → WithBot ℚ)
    (uni : UniSampler) (m : MultiSampling n) (rng : ℕ → ℚ) (k : ℕ)
    (v : Fin n → ℚ) (m' : MultiSampling n) (k' : ℕ)
    (h : MultiSampling.sample log_p uni m rng k = some (v, m', k')) :
    ∃ us : List ℚ,
      MultiSampling.draws log_p uni rng m.directions m.x k = some (us, k') ∧
      us.length = m.directions.length ∧
      (∀ i, v i = m.x i + (List.zipWith (fun u d => u * d i) us m.directions).sum) ∧
      m' = ⟨v, m.directions⟩ := by
  simp only [MultiSampling.sample] at h
  split at h
  · exact absurd h (by simp)
  · rename_i v0 k0 hp
    obtain ⟨rfl, rfl, rfl⟩ := by simpa using h
    obtain ⟨us, hd, hlen, hsum⟩ := loopDirs_spec log_p uni rng m.directions m.x k v0 k0 hp
    exact ⟨us, hd, hlen, hsum, rfl⟩

/-- Witness for C5: one direction `(1)` in dimension one, stub 1-D
sampler returning `2`: the returned state is `5 + 2·1` and the draw list
is `[2]`. -/
theorem multi_directions_in_order_witness :
    ∃ us : List ℚ,
      MultiSampling.draws lp1 uniTwo zeroRng m1.directions m1.x 0 = some (us, 1) ∧
      us.length = m1.directions.length ∧
      (∀ i, (fun _ => (5 : ℚ) + 2 * 1) i =
        m1.x i + (List.zipWith (fun u d => u * d i) us m1.directions).sum) ∧
      (⟨fun _ => (5 : ℚ) + 2 * 1, [fun _ => 1]⟩ : MultiSampling 1) =
        ⟨fun _ => (5 : ℚ) + 2 * 1, m1.directions⟩ :=
  multi_directions_in_order lp1 uniTwo m1 zeroRng 0
    (fun _ => (5 : ℚ) + 2 * 1) ⟨fun _ => (5 : ℚ) + 2 * 1, [fun _ => 1]⟩ 1 rfl

/-- The heap sweep writes only the working cell `r`: sizes and all other
cells are untouched. -/
theorem gibbsSweepH_frame {α : Type} (r : ℕ) :
    ∀ (ts : List (List α → α)) (i : ℕ) (h h' : Heap α),
      gibbsSweepH r i ts h = some h' →
      h'.size = h.size ∧ ∀ q, q ≠ r → h'.data q = h.data q := by
  intro ts
  induction ts with
  | nil =>
    intro i h h' hh
    injection hh with h1
    subst h1
    exact ⟨rfl, fun q _ => rfl⟩
  | cons t ts ih =>
    intro i h h' hh
    simp only [gibbsSweepH] at hh
    split at hh
    · obtain ⟨hsz, hfr⟩ := ih (i + 1) _ _ hh
      refine ⟨hsz, fun q hq => ?_⟩
      rw [hfr q hq]
      simp [Heap.write, hq]
    · exact absurd hh (by simp)

/-- One heap-model `sample()` call allocates the fresh cell `h.size` for
the copy `x = self.x[:]`, writes only that cell, repoints `self.x` at it
and returns it; every previously allocated cell is untouched. -/
theorem gibbsSampleH_spec {α : Type} (g : GibbsH α) (h : Heap α) (r : ℕ)
    (g' : GibbsH α) (h' : Heap α)
    (hs : gibbsSampleH g h = some (r, g', h')) :
    r = h.size ∧ g' = ⟨g.transitions, r⟩ ∧ h'.size = h.size + 1 ∧
      ∀ q, q < h.size → h'.data q = h.data q := by
  simp only [gibbsSampleH, Heap.alloc] at hs
  split at hs
  · exact absurd hs (by simp)
  · rename_i h2 hsw
    obtain ⟨rfl, rfl, rfl⟩ := by simpa using hs
    obtain ⟨hsz, hfr⟩ := gibbsSweepH_frame h.size g.transitions 0 _ _ hsw
    refine ⟨rfl, rfl, by rw [hsz], fun q hq => ?_⟩
    rw [hfr q (by omega)]
    simp only []
    rw [if_neg (by omega)]

/-- Master invariant of repeated heap-model calls: the final heap
preserves every cell of the initial heap, and every recorded call
returned a fresh cell, strictly increasing call over call, whose value in
the final heap is exactly the value it held when that call returned. -/
theorem gibbsRunH_spec {α : Type} :
    ∀ (n : ℕ) (g : GibbsH α) (h : Heap α) (prs : List (ℕ × List α))
      (gf : GibbsH α) (hf : Heap α),
      g.xref < h.size →
      gibbsRunH n g h = some (prs, gf, hf) →
      h.size ≤ hf.size ∧ (∀ q, q < h.size → hf.data q = h.data q) ∧
      ∀ j rj vj, prs.get? j = some (rj, vj) →
        g.xref < rj ∧ h.size ≤ rj ∧ rj < hf.size ∧ hf.data rj = vj ∧
        ∀ m rm vm, m < j → prs.get? m = some (rm, vm) → rm < rj := by
  intro n
  induction n with
  | zero =>
    intro g h prs gf hf hwf hrun
    obtain ⟨rfl, rfl, rfl⟩ := by simpa [gibbsRunH] using hrun
    exact ⟨le_rfl, fun q _ => rfl, fun j rj vj hj => by simp at hj⟩
  | succ n ih =>
    intro g h prs gf hf hwf hrun
    simp only [gibbsRunH] at hrun
    split at hrun
    · exact absurd hrun (by simp)
    · rename_i r g1 h1 hs1
      split at hrun
      · exact absurd hrun (by simp)
      · rename_i prs' g2 h2 hrun'
        obtain ⟨rfl, rfl, rfl⟩ := by simpa using hrun
        obtain ⟨hr, hg1, hsz1, hfr1⟩ := gibbsSampleH_spec g h r g1 h1 hs1
        have hwf1 : g1.xref < h1.size := by
          rw [hg1, hsz1]
          simp
          omega
        obtain ⟨hle, hfr, hent⟩ := ih g1 h1 prs' g2 h2 hwf1 hrun'
        refine ⟨by omega, fun q hq => ?_, fun j rj vj hj => ?_⟩
        · rw [hfr q (by omega), hfr1 q hq]
        · cases j with
          | zero =>
            simp only [List.get?_cons_zero, Option.some.injEq, Prod.mk.injEq] at hj
            obtain ⟨rfl, rfl⟩ := hj
            refine ⟨by omega, by omega, by omega, hfr r (by omega), ?_⟩
            intro m rm vm hm
            omega
          | succ j =>
            simp only [List.get?_cons_succ] at hj
            obtain ⟨ha, hb, hc, hd, he⟩ := hent j rj vj hj
            have hrj : r < rj := by
              rw [hg1] at ha
              exact ha
            refine ⟨by omega, by omega, hc, hd, ?_⟩
            intro m rm vm hm hgm
            cases m with
            | zero =>
              simp only [List.get?_cons_zero, Option.some.injEq, Prod.mk.injEq] at hgm
              obtain ⟨rfl, -⟩ := hgm
              exact hrj
            | succ m =>
              simp only [List.get?_cons_succ] at hgm
              exact he m rm vm (by omega) hgm

/-- **C10**: `GibbsSampling.sample` begins each sweep by taking a shallow
copy of the state (`x = self.x[:]`) and writes only into that copy, so a
state list returned by an earlier `sample()` call is never mutated at the
top level by any later call (its value in the final heap is the value it
held when returned), and each call returns a list object distinct from
(indeed allocated after) the pre-call `self.x`, the returned references
being strictly increasing. -/
theorem gibbs_returned_lists_never_mutated {α : Type} (n : ℕ) (g : GibbsH α)
    (h : Heap α) (prs : List (ℕ × List α))
    (hwf : g.xref < h.size) (hprs : runPairs n g h = some prs) :
    ∀ j r v, prs.get? j = some (r, v) →
      runData n g h r = some v ∧ g.xref < r ∧ h.size ≤ r ∧
      ∀ m r' v', m < j → prs.get? m = some (r', v') → r' < r := by
  intro j r v hj
  simp only [runPairs] at hprs
  cases hrun : gibbsRunH n g h with
  | none => rw [hrun] at hprs; exact absurd hprs (by simp)
  | some t =>
    obtain ⟨prs0, gf, hf⟩ := t
    rw [hrun] at hprs
    simp only [Option.map_some', Option.some.injEq] at hprs
    subst hprs
    obtain ⟨-, -, hent⟩ := gibbsRunH_spec n g h prs0 gf hf hwf hrun
    obtain ⟨ha, hb, -, hd, he⟩ := hent j r v hj
    refine ⟨?_, ha, hb, he⟩
    simp only [runData, hrun, Option.map_some', Option.some.injEq]
    exact hd

/-- Witness for C10: two calls on the one-transition sampler `gC` from
heap `hC`; the list returned by the first call (cell `1`, value `[42]`)
still holds `[42]` in the final heap, and cell `1` is distinct from the
pre-call `self.x` cell `0`. -/
theorem gibbs_returned_lists_never_mutated_witness :
    runData 2 gC hC 1 = some [42] ∧ gC.xref < 1 ∧ hC.size ≤ 1 :=
  ⟨(gibbs_returned_lists_never_mutated 2 gC hC [(1, [42]), (2, [42])]
      (by norm_num [gC, hC]) rfl 0 1 [42] rfl).1,
    (gibbs_returned_lists_never_mutated 2 gC hC [(1, [42]), (2, [42])]
      (by norm_num [gC, hC]) rfl 0 1 [42] rfl).2.1,
    (gibbs_returned_lists_never_mutated 2 gC hC [(1, [42]), (2, [42])]
      (by norm_num [gC, hC]) rfl 0 1 [42] rfl).2.2.1⟩
